import Mathlib

/-!
# Detection Reconciliation Engine — shallow embedding

Shallow embedding of the core logic of `src/inventory_logic.py`
(`calculate_centroid`, `find_best_match`, `analyze_inventory_changes`,
`apply_inventory_updates`), together with theorems settling the frozen
claims about the spec.

Modelling conventions:
* Python numbers (bbox coordinates, centroids) are rationals `ℚ`;
  counts and class ids are integers `ℤ`.
* Python dicts with string keys are insertion-ordered association lists
  `List (String × ℤ)`; `dictGet` is `d.get(k, 0)` and `dictSet` is
  `d[k] = v` (replace in place if the key exists, append otherwise).
* `math.dist` compares Euclidean distances only through `<`; since
  squaring is strictly monotone on nonnegative reals, the embedding
  uses the squared Euclidean distance `dist2`, which orders any two
  distances exactly as the source's `math.dist` does.
* A Python function that can raise becomes `Option`-valued: for
  `calculate_centroid`, unpacking a list that does not have exactly
  four elements raises, which the embedding models as `none`.
* Inside the pipeline every detection carries a fixed four-field bbox
  (`parse_yolo_results` always produces `boxes.xyxy[i].tolist()`, a
  four-element list), so the pipeline uses the total function
  `centroid` on a `Bbox`; the lemma `calculate_centroid_coe` ties it
  to the source-level `calculate_centroid`.
-/

/-- A bounding box `[xmin, ymin, xmax, ymax]` as produced by the detector. -/
structure Bbox where
  xmin : ℚ
  ymin : ℚ
  xmax : ℚ
  ymax : ℚ
  deriving Repr, DecidableEq

/-- One detection: `{'class_id': ..., 'bbox': [...], 'confidence': ...}`. -/
structure Detection where
  class_id : ℤ
  bbox : Bbox
  confidence : ℚ
  deriving Repr, DecidableEq

/-- `calculate_centroid(bbox)` from `inventory_logic.py` lines 81–89, on a raw
coordinate list.  The Python body is a bare unpacking
`xmin, ymin, xmax, ymax = bbox` followed by the midpoint formula; unpacking a
list whose length is not 4 raises, modelled as `none`.  There is no further
validation in the source. -/
def calculate_centroid : List ℚ → Option (ℚ × ℚ)
  | [xmin, ymin, xmax, ymax] => some ((xmin + xmax) / 2, (ymin + ymax) / 2)
  | _ => none

/-- The same midpoint formula on a fixed-shape `Bbox` (total, for pipeline use). -/
def centroid (b : Bbox) : ℚ × ℚ :=
  ((b.xmin + b.xmax) / 2, (b.ymin + b.ymax) / 2)

/-- Centroid of a detection's bbox (the pipeline always calls
`calculate_centroid(det['bbox'])`). -/
def centroidD (d : Detection) : ℚ × ℚ :=
  centroid d.bbox

/-- On a well-shaped four-element list, the source-level `calculate_centroid`
agrees with the pipeline-level `centroid`. -/
theorem calculate_centroid_coe (b : Bbox) :
    calculate_centroid [b.xmin, b.ymin, b.xmax, b.ymax] = some (centroid b) := rfl

/-- Squared Euclidean distance between two centroids.  The source computes
`math.dist` (the true Euclidean distance) but only ever compares distances with
`<`; squaring is strictly monotone on nonnegative reals, so all comparisons
agree. -/
def dist2 (p q : ℚ × ℚ) : ℚ :=
  (p.1 - q.1) ^ 2 + (p.2 - q.2) ^ 2

/-- Matcher loop state: `(best_match, best_match_index, min_dist)` where
`min_dist = none` models the initial `float('inf')` (squared once finite). -/
abbrev FbmState := Option Detection × ℤ × Option ℚ

/-- The `for i, final_det in enumerate(final_detections_list)` loop of
`find_best_match` (lines 105–117): skip a candidate when its class differs or
its index is already claimed, otherwise keep it iff its distance is strictly
below the minimum so far (strictly: a later tie never replaces the current
best). -/
def fbmGo (c : ℚ × ℚ) (cid : ℤ) (matched : List ℤ) :
    ℕ → List Detection → FbmState → FbmState
  | _, [], st => st
  | i, final_det :: rest, st =>
    let st' :=
      if final_det.class_id ≠ cid ∨ (i : ℤ) ∈ matched then st
      else
        let d := dist2 c (centroidD final_det)
        match st.2.2 with
        | none => (some final_det, (i : ℤ), some d)
        | some m => if d < m then (some final_det, (i : ℤ), some d) else st
    fbmGo c cid matched (i + 1) rest st'

/-- `find_best_match(initial_det, final_detections_list, matched_final_indices)`
from lines 91–118: returns `(best_match, best_match_index, min_dist)`, with
`best_match_index = -1` and `min_dist = none` (infinity) when no unclaimed
same-class candidate exists. -/
def find_best_match (initial_det : Detection) (final_detections_list : List Detection)
    (matched_final_indices : List ℤ) : FbmState :=
  fbmGo (centroidD initial_det) initial_det.class_id matched_final_indices
    0 final_detections_list (none, -1, none)

/-- `class_map.get(class_id, f"ID:{class_id}")` (lines 147, 183). -/
def getLabel (class_map : ℤ → Option String) (cid : ℤ) : String :=
  match class_map cid with
  | some l => l
  | none => "ID:" ++ toString cid

/-- `k in d` for a Python dict modelled as an association list. -/
def hasKey (d : List (String × ℤ)) (k : String) : Bool :=
  d.any (fun p => p.1 = k)

/-- `d.get(k, 0)`. -/
def dictGet (d : List (String × ℤ)) (k : String) : ℤ :=
  match d.find? (fun p => p.1 = k) with
  | some p => p.2
  | none => 0

/-- `d[k] = v`: replace the value in place when the key is present (insertion
order kept), append at the end otherwise. -/
def dictSet (d : List (String × ℤ)) (k : String) (v : ℤ) : List (String × ℤ) :=
  if hasKey d k then d.map (fun p => if p.1 = k then (k, v) else p)
  else d ++ [(k, v)]

/-- Pass 1 of `analyze_inventory_changes` (lines 145–175): iterate the initial
detections in order, carrying `(inventory_changes, matched_final_indices)`.
A found match claims its index immediately and contributes per the
left-to-right rule on the horizontal centroid coordinate; an unmatched initial
detection contributes `-1`. -/
def pass1 (class_map : ℤ → Option String) (final_objects_list : List Detection) :
    List (String × ℤ) × List ℤ → List Detection → List (String × ℤ) × List ℤ
  | st, [] => st
  | (changes, matched), initial_det :: rest =>
    let initial_label := getLabel class_map initial_det.class_id
    let r := find_best_match initial_det final_objects_list matched
    match r.1 with
    | some best_match =>
        let matched' := matched ++ [r.2.1]
        let cx_initial := (centroidD initial_det).1
        let cx_final := (centroidD best_match).1
        let changes' :=
          if cx_final > cx_initial then
            dictSet changes initial_label (dictGet changes initial_label - 1)
          else if cx_final < cx_initial then
            dictSet changes initial_label (dictGet changes initial_label + 1)
          else changes
        pass1 class_map final_objects_list (changes', matched') rest
    | none =>
        pass1 class_map final_objects_list
          (dictSet changes initial_label (dictGet changes initial_label - 1), matched) rest

/-- Pass 2 of `analyze_inventory_changes` (lines 181–185):
`for i, final_det in enumerate(final_objects_list)`, each index not claimed in
pass 1 contributes `-1` to its label. -/
def pass2 (class_map : ℤ → Option String) (matched : List ℤ) :
    List (String × ℤ) → ℕ → List Detection → List (String × ℤ)
  | changes, _, [] => changes
  | changes, i, final_det :: rest =>
    let changes' :=
      if (i : ℤ) ∈ matched then changes
      else
        let final_label := getLabel class_map final_det.class_id
        dictSet changes final_label (dictGet changes final_label - 1)
    pass2 class_map matched changes' (i + 1) rest

/-- `analyze_inventory_changes(initial_detections, final_detections, config,
class_map)` (lines 120–188).  The `config` argument is never read by the
function body (it is only mentioned in prints), so it is omitted.  The local
`final_objects_list = [det for det in final_detections]` is a copy of the
input list. -/
def analyze_inventory_changes (initial_detections final_detections : List Detection)
    (class_map : ℤ → Option String) : List (String × ℤ) :=
  let final_objects_list := final_detections
  let st := pass1 class_map final_objects_list ([], []) initial_detections
  pass2 class_map st.2 st.1 0 final_objects_list

/-- One iteration of the update loop in `apply_inventory_updates`
(lines 202–213): lazily create an absent key at 0, then add the delta. -/
def applyStep (new_inventory : List (String × ℤ)) (p : String × ℤ) : List (String × ℤ) :=
  let inv := if hasKey new_inventory p.1 then new_inventory else dictSet new_inventory p.1 0
  dictSet inv p.1 (dictGet inv p.1 + p.2)

/-- `apply_inventory_updates(current_inventory, inventory_changes)`
(lines 190–215): copy the store, return the copy unchanged when there are no
changes, otherwise fold the update loop over the change items. -/
def apply_inventory_updates (current_inventory inventory_changes : List (String × ℤ)) :
    List (String × ℤ) :=
  let new_inventory := current_inventory
  if inventory_changes.isEmpty then new_inventory
  else inventory_changes.foldl applyStep new_inventory

/-! ## Spec-side descriptions (from spec.md §§3–4), for refinement statements -/

/-- The direction rule of the Change Classifier (spec §4.3): `-1` when the
match moved right, `+1` when it moved left, `0` otherwise. -/
def dirDelta (cx_initial cx_final : ℚ) : ℤ :=
  if cx_final > cx_initial then -1 else if cx_final < cx_initial then 1 else 0

/-- Greedy matching trace (spec §4.2): each before-detection in order, with the
after-detection the matcher pairs it with (or `none`), claiming indices as the
code does. -/
def matchTrace (finals : List Detection) : List ℤ → List Detection →
    List (Detection × Option Detection)
  | _, [] => []
  | matched, d :: rest =>
    let r := find_best_match d finals matched
    match r.1 with
    | some bm => (d, some bm) :: matchTrace finals (matched ++ [r.2.1]) rest
    | none => (d, none) :: matchTrace finals matched rest

/-- The after-indices claimed by the greedy matcher, in claiming order. -/
def claimedIdx (finals : List Detection) : List ℤ → List Detection → List ℤ
  | _, [] => []
  | matched, d :: rest =>
    let r := find_best_match d finals matched
    match r.1 with
    | some _ => r.2.1 :: claimedIdx finals (matched ++ [r.2.1]) rest
    | none => claimedIdx finals matched rest

/-- Index-level matching pairs `(before-index, after-index)` of the MatchResult
(spec §3), starting the before-index count at `k`. -/
def matchPairsIdx (finals : List Detection) : List ℤ → ℕ → List Detection →
    List (ℕ × ℤ)
  | _, _, [] => []
  | matched, k, d :: rest =>
    let r := find_best_match d finals matched
    match r.1 with
    | some _ => (k, r.2.1) :: matchPairsIdx finals (matched ++ [r.2.1]) (k + 1) rest
    | none => matchPairsIdx finals matched (k + 1) rest

/-- Before-indices left unmatched by the greedy matcher, counting from `k`. -/
def unmatchedBeforeIdx (finals : List Detection) : List ℤ → ℕ → List Detection →
    List ℕ
  | _, _, [] => []
  | matched, k, d :: rest =>
    let r := find_best_match d finals matched
    match r.1 with
    | some _ => unmatchedBeforeIdx finals (matched ++ [r.2.1]) (k + 1) rest
    | none => k :: unmatchedBeforeIdx finals matched (k + 1) rest

/-- The after-detections whose index (counting from `i`) was never claimed —
exactly the detections pass 2 charges `-1`. -/
def unmatchedAfterFrom (matched : List ℤ) : ℕ → List Detection → List Detection
  | _, [] => []
  | i, d :: rest =>
    if (i : ℤ) ∈ matched then unmatchedAfterFrom matched (i + 1) rest
    else d :: unmatchedAfterFrom matched (i + 1) rest

/-- The after-indices (counting from `i`) never claimed. -/
def unmatchedAfterIdx (matched : List ℤ) : ℕ → List Detection → List ℕ
  | _, [] => []
  | i, _ :: rest =>
    if (i : ℤ) ∈ matched then unmatchedAfterIdx matched (i + 1) rest
    else i :: unmatchedAfterIdx matched (i + 1) rest

/-- Apply one signed per-label contribution to the changes dict; a zero
contribution touches nothing (the `else` branch of the direction rule only
prints). -/
def applyContrib (changes : List (String × ℤ)) (p : String × ℤ) : List (String × ℤ) :=
  if p.2 = 0 then changes else dictSet changes p.1 (dictGet changes p.1 + p.2)

/-- The per-label contribution of one trace entry (spec §4.3). -/
def contribOf (class_map : ℤ → Option String) (q : Detection × Option Detection) :
    String × ℤ :=
  (getLabel class_map q.1.class_id,
    match q.2 with
    | some bm => dirDelta (centroidD q.1).1 (centroidD bm).1
    | none => -1)

/-- A trace entry that contributes a nonzero delta: an unmatched
before-detection, or a matched pair whose horizontal centroid coordinate
changed. -/
def movedOrGone (q : Detection × Option Detection) : Bool :=
  match q.2 with
  | some bm => decide ((centroidD bm).1 ≠ (centroidD q.1).1)
  | none => true

/-- Sum of the values of a changes dict (total delta across labels). -/
def sumVals (d : List (String × ℤ)) : ℤ :=
  (d.map Prod.snd).sum

/-- The keys of an association list are pairwise distinct (true of every list
that models a Python dict). -/
def KeysNodup (d : List (String × ℤ)) : Prop :=
  (d.map Prod.fst).Nodup

/-- Index `j` of the after-list is an unclaimed same-class candidate. -/
def IsCand (finals : List Detection) (cid : ℤ) (matched : List ℤ) (j : ℕ) : Prop :=
  ∃ h : j < finals.length, (finals.get ⟨j, h⟩).class_id = cid ∧ (j : ℤ) ∉ matched

/-- Invariant of the `find_best_match` loop after scanning the first `n`
after-detections: either nothing was kept and no candidate was seen, or the
kept detection is a candidate at minimal (squared) distance among the scanned
candidates, the first such index in case of ties. -/
structure FbmInv (finals : List Detection) (c : ℚ × ℚ) (cid : ℤ) (matched : List ℤ)
    (n : ℕ) (st : FbmState) : Prop where
  none_case : st.1 = none →
    st = (none, -1, none) ∧ ∀ j, j < n → ¬ IsCand finals cid matched j
  some_case : ∀ bm, st.1 = some bm →
    ∃ (j : ℕ) (hj : j < finals.length), j < n ∧ st.2.1 = (j : ℤ)
      ∧ finals.get ⟨j, hj⟩ = bm ∧ bm.class_id = cid ∧ (j : ℤ) ∉ matched
      ∧ st.2.2 = some (dist2 c (centroidD bm))
      ∧ ∀ k (hk : k < finals.length), k < n → (finals.get ⟨k, hk⟩).class_id = cid →
          (k : ℤ) ∉ matched →
          dist2 c (centroidD bm) ≤ dist2 c (centroidD (finals.get ⟨k, hk⟩))
          ∧ (dist2 c (centroidD (finals.get ⟨k, hk⟩)) = dist2 c (centroidD bm) → j ≤ k)

/-! ## Concrete data used in closed witness and counterexample theorems -/

/-- A class map sending id 6 to "skittles" (id 6 of the source CLASS_MAP). -/
def cmW : ℤ → Option String :=
  fun i => if i = 6 then some "skittles" else none

/-- Before-detection at centroid (5, 5). -/
def dW1 : Detection := ⟨6, ⟨0, 0, 10, 10⟩, 9/10⟩

/-- Before-detection at centroid (105, 5). -/
def dW2 : Detection := ⟨6, ⟨100, 0, 110, 10⟩, 9/10⟩

/-- After-detection at centroid (25, 5). -/
def fW1 : Detection := ⟨6, ⟨20, 0, 30, 10⟩, 9/10⟩

/-- After-detection at centroid (85, 5). -/
def fW2 : Detection := ⟨6, ⟨80, 0, 90, 10⟩, 9/10⟩

/-- Before-detection at centroid (1, 1), for the tie-break witness. -/
def dT : Detection := ⟨1, ⟨0, 0, 2, 2⟩, 1⟩

/-- After-detection at centroid (3, 1): squared distance 4 from `dT`. -/
def fT0 : Detection := ⟨1, ⟨2, 0, 4, 2⟩, 1⟩

/-- After-detection at centroid (-1, 1): also squared distance 4 from `dT`. -/
def fT1 : Detection := ⟨1, ⟨-2, 0, 0, 2⟩, 1⟩

/-! ## Association-list dictionary lemmas -/

theorem hasKey_cons (p : String × ℤ) (d : List (String × ℤ)) (k : String) :
    hasKey (p :: d) k = (decide (p.1 = k) || hasKey d k) := rfl

theorem dictGet_cons (p : String × ℤ) (d : List (String × ℤ)) (k : String) :
    dictGet (p :: d) k = if p.1 = k then p.2 else dictGet d k := by
  by_cases h : p.1 = k
  · simp [dictGet, List.find?_cons_of_pos, h]
  · simp only [dictGet, if_neg h]
    rw [List.find?_cons_of_neg]
    simp [h]

theorem dictGet_of_not_hasKey (d : List (String × ℤ)) (k : String)
    (h : hasKey d k = false) : dictGet d k = 0 := by
  induction d with
  | nil => rfl
  | cons p d ih =>
      rw [hasKey_cons] at h
      rcases Bool.or_eq_false_iff.mp h with ⟨h1, h2⟩
      rw [dictGet_cons, if_neg (by simpa using h1)]
      exact ih h2

theorem dictGet_dictSet_self (d : List (String × ℤ)) (k : String) (v : ℤ) :
    dictGet (dictSet d k v) k = v := by
  unfold dictSet
  by_cases h : hasKey d k
  · rw [if_pos h]
    induction d with
    | nil => simp [hasKey] at h
    | cons p d ih =>
        rw [List.map_cons, dictGet_cons]
        by_cases hp : p.1 = k
        · simp [hp]
        · rw [if_neg hp, if_neg hp]
          rw [hasKey_cons] at h
          exact ih (by simpa [hp] using h)
  · rw [if_neg h]
    induction d with
    | nil => simp [dictGet_cons]
    | cons p d ih =>
        rw [hasKey_cons] at h
        have h1 : ¬p.1 = k := by
          intro hk
          simp [hk] at h
        rw [List.cons_append, dictGet_cons, if_neg h1]
        exact ih (by simpa [h1] using h)

theorem dictGet_dictSet_ne (d : List (String × ℤ)) (k k' : String) (v : ℤ)
    (hne : k' ≠ k) : dictGet (dictSet d k v) k' = dictGet d k' := by
  unfold dictSet
  by_cases h : hasKey d k
  · rw [if_pos h]
    clear h
    induction d with
    | nil => rfl
    | cons p d ih =>
        rw [List.map_cons, dictGet_cons, dictGet_cons]
        by_cases hp : p.1 = k
        · rw [if_pos hp]
          rw [if_neg (by simpa using (Ne.symm hne)), if_neg (by rw [hp]; exact Ne.symm hne)]
          exact ih
        · rw [if_neg hp]
          by_cases hp' : p.1 = k'
          · rw [if_pos hp', if_pos hp']
          · rw [if_neg hp', if_neg hp']
            exact ih
  · rw [if_neg h]
    clear h
    induction d with
    | nil =>
        simp [dictGet_cons, Ne.symm hne]
    | cons p d ih =>
        rw [List.cons_append, dictGet_cons, dictGet_cons]
        by_cases hp' : p.1 = k'
        · rw [if_pos hp', if_pos hp']
        · rw [if_neg hp', if_neg hp']
          exact ih

theorem hasKey_dictSet (d : List (String × ℤ)) (k k' : String) (v : ℤ) :
    hasKey (dictSet d k v) k' = true ↔ (k' = k ∨ hasKey d k' = true) := by
  unfold dictSet
  by_cases h : hasKey d k
  · rw [if_pos h]
    constructor
    · intro hmem
      rcases List.any_eq_true.mp hmem with ⟨q, hq, hq1⟩
      rcases List.mem_map.mp hq with ⟨p, hp, hfp⟩
      by_cases hpk : p.1 = k
      · left
        rw [if_pos hpk] at hfp
        rw [← hfp] at hq1
        have hk' : k = k' := by simpa using hq1
        exact hk'.symm
      · right
        rw [if_neg hpk] at hfp
        exact List.any_eq_true.mpr ⟨p, hp, by rw [hfp]; exact hq1⟩
    · intro hmem
      rcases hmem with hk | hmem
      · rcases List.any_eq_true.mp h with ⟨p, hp, hp1⟩
        refine List.any_eq_true.mpr ⟨(k, v), List.mem_map.mpr ⟨p, hp, ?_⟩, by simp [hk]⟩
        rw [if_pos (by simpa using hp1)]
      · rcases List.any_eq_true.mp hmem with ⟨p, hp, hp1⟩
        by_cases hpk : p.1 = k
        · refine List.any_eq_true.mpr ⟨(k, v), List.mem_map.mpr ⟨p, hp, ?_⟩, ?_⟩
          · rw [if_pos hpk]
          · have hpk' : p.1 = k' := by simpa using hp1
            have : k' = k := by rw [← hpk', hpk]
            simp [this]
        · refine List.any_eq_true.mpr ⟨p, List.mem_map.mpr ⟨p, hp, ?_⟩, hp1⟩
          rw [if_neg hpk]
  · rw [if_neg h]
    constructor
    · intro hmem
      rcases List.any_eq_true.mp hmem with ⟨q, hq, hq1⟩
      rcases List.mem_append.mp hq with hq | hq
      · exact Or.inr (List.any_eq_true.mpr ⟨q, hq, hq1⟩)
      · left
        have : q = (k, v) := by simpa using hq
        rw [this] at hq1
        have hk' : k = k' := by simpa using hq1
        exact hk'.symm
    · intro hmem
      rcases hmem with hk | hmem
      · exact List.any_eq_true.mpr ⟨(k, v), List.mem_append_right _ (by simp), by simp [hk]⟩
      · rcases List.any_eq_true.mp hmem with ⟨p, hp, hp1⟩
        exact List.any_eq_true.mpr ⟨p, List.mem_append_left _ hp, hp1⟩

theorem map_eq_self_of_not_hasKey (d : List (String × ℤ)) (k : String) (v : ℤ)
    (h : hasKey d k = false) :
    d.map (fun p => if p.1 = k then (k, v) else p) = d := by
  induction d with
  | nil => rfl
  | cons p d ih =>
      rw [hasKey_cons] at h
      rcases Bool.or_eq_false_iff.mp h with ⟨h1, h2⟩
      have h1' : ¬p.1 = k := by simpa using h1
      rw [List.map_cons, if_neg h1', ih h2]

theorem not_hasKey_of_keysNodup_cons (p : String × ℤ) (d : List (String × ℤ))
    (h : KeysNodup (p :: d)) : hasKey d p.1 = false := by
  rw [KeysNodup, List.map_cons, List.nodup_cons] at h
  by_contra hcon
  rcases List.any_eq_true.mp (Bool.not_eq_false _ |>.mp hcon) with ⟨q, hq, hq1⟩
  exact h.1 (List.mem_map.mpr ⟨q, hq, by simpa using hq1.symm⟩)

theorem keysNodup_dictSet (d : List (String × ℤ)) (k : String) (v : ℤ)
    (h : KeysNodup d) : KeysNodup (dictSet d k v) := by
  unfold dictSet
  by_cases hk : hasKey d k
  · rw [if_pos hk]
    have : (d.map (fun p => if p.1 = k then (k, v) else p)).map Prod.fst = d.map Prod.fst := by
      rw [List.map_map]
      refine List.map_congr_left ?_
      intro p _
      by_cases hp : p.1 = k
      · simp [hp]
      · simp [hp]
    rw [KeysNodup, this]
    exact h
  · rw [if_neg hk]
    rw [KeysNodup, List.map_append]
    rw [List.nodup_append]
    refine ⟨h, by simp, ?_⟩
    intro a ha
    simp only [List.map_cons, List.map_nil, List.mem_singleton]
    intro hak
    rcases List.mem_map.mp ha with ⟨p, hp, hpa⟩
    exact hk (List.any_eq_true.mpr ⟨p, hp, by simp [hpa, hak]⟩)

theorem sumVals_dictSet (d : List (String × ℤ)) (k : String) (v : ℤ)
    (h : KeysNodup d) : sumVals (dictSet d k v) = sumVals d - dictGet d k + v := by
  unfold dictSet
  by_cases hk : hasKey d k
  · rw [if_pos hk]
    induction d with
    | nil => simp [hasKey] at hk
    | cons p d ih =>
        have hnd : KeysNodup d := by
          rw [KeysNodup, List.map_cons, List.nodup_cons] at h
          exact h.2
        by_cases hp : p.1 = k
        · have hdk : hasKey d k = false := by
            have := not_hasKey_of_keysNodup_cons p d h
            rw [hp] at this
            exact this
          rw [List.map_cons, if_pos hp, map_eq_self_of_not_hasKey d k v hdk]
          rw [dictGet_cons, if_pos hp]
          simp [sumVals]
          ring
        · have hdk : hasKey d k := by
            rw [hasKey_cons] at hk
            simpa [hp] using hk
          rw [List.map_cons, if_neg hp]
          have := ih hnd hdk
          rw [dictGet_cons, if_neg hp]
          simp only [sumVals, List.map_cons, List.sum_cons] at this ⊢
          rw [this]
          ring
  · rw [if_neg hk]
    rw [dictGet_of_not_hasKey d k (Bool.not_eq_true _ |>.mp hk)]
    simp [sumVals]

/-! ## Fold lemmas for the per-label contribution stream -/

theorem dictGet_applyContrib (ch : List (String × ℤ)) (c : String × ℤ) (l : String) :
    dictGet (applyContrib ch c) l = dictGet ch l + (if c.1 = l then c.2 else 0) := by
  unfold applyContrib
  by_cases hz : c.2 = 0
  · rw [if_pos hz]
    by_cases hc : c.1 = l <;> simp [hc, hz]
  · rw [if_neg hz]
    by_cases hc : c.1 = l
    · rw [if_pos hc, ← hc, dictGet_dictSet_self]
    · rw [if_neg hc, dictGet_dictSet_ne _ _ _ _ (fun hll => hc hll.symm)]
      simp

theorem foldl_applyContrib_dictGet (cs : List (String × ℤ)) (ch : List (String × ℤ))
    (l : String) :
    dictGet (cs.foldl applyContrib ch) l
      = dictGet ch l + ((cs.filter (fun c => c.1 = l)).map Prod.snd).sum := by
  induction cs generalizing ch with
  | nil => simp
  | cons c cs ih =>
      rw [List.foldl_cons, ih]
      rw [dictGet_applyContrib]
      by_cases hc : c.1 = l
      · rw [if_pos hc, List.filter_cons_of_pos (by simpa using hc)]
        simp only [List.map_cons, List.sum_cons]
        ring
      · rw [if_neg hc, List.filter_cons_of_neg (by simpa using hc)]
        simp

theorem keysNodup_applyContrib (ch : List (String × ℤ)) (c : String × ℤ)
    (h : KeysNodup ch) : KeysNodup (applyContrib ch c) := by
  unfold applyContrib
  by_cases hz : c.2 = 0
  · rw [if_pos hz]; exact h
  · rw [if_neg hz]; exact keysNodup_dictSet _ _ _ h

theorem keysNodup_foldl_applyContrib (cs : List (String × ℤ)) (ch : List (String × ℤ))
    (h : KeysNodup ch) : KeysNodup (cs.foldl applyContrib ch) := by
  induction cs generalizing ch with
  | nil => exact h
  | cons c cs ih => exact ih _ (keysNodup_applyContrib ch c h)

theorem sumVals_applyContrib (ch : List (String × ℤ)) (c : String × ℤ)
    (h : KeysNodup ch) : sumVals (applyContrib ch c) = sumVals ch + c.2 := by
  unfold applyContrib
  by_cases hz : c.2 = 0
  · rw [if_pos hz, hz]; ring
  · rw [if_neg hz, sumVals_dictSet _ _ _ h]; ring

theorem foldl_applyContrib_sumVals (cs : List (String × ℤ)) (ch : List (String × ℤ))
    (h : KeysNodup ch) :
    sumVals (cs.foldl applyContrib ch) = sumVals ch + (cs.map Prod.snd).sum := by
  induction cs generalizing ch with
  | nil => simp
  | cons c cs ih =>
      rw [List.foldl_cons, ih _ (keysNodup_applyContrib ch c h), sumVals_applyContrib ch c h]
      simp [add_assoc]

theorem hasKey_applyContrib (ch : List (String × ℤ)) (c : String × ℤ) (l : String) :
    hasKey (applyContrib ch c) l = true ↔ (hasKey ch l = true ∨ (c.1 = l ∧ c.2 ≠ 0)) := by
  unfold applyContrib
  by_cases hz : c.2 = 0
  · rw [if_pos hz]
    simp [hz]
  · rw [if_neg hz]
    rw [hasKey_dictSet]
    constructor
    · rintro (hl | hl)
      · exact Or.inr ⟨hl.symm, hz⟩
      · exact Or.inl hl
    · rintro (hl | hl)
      · exact Or.inr hl
      · exact Or.inl hl.1.symm

theorem foldl_applyContrib_hasKey (cs : List (String × ℤ)) (ch : List (String × ℤ))
    (l : String) :
    hasKey (cs.foldl applyContrib ch) l = true
      ↔ (hasKey ch l = true ∨ ∃ c ∈ cs, c.1 = l ∧ c.2 ≠ 0) := by
  induction cs generalizing ch with
  | nil => simp
  | cons c cs ih =>
      rw [List.foldl_cons, ih, hasKey_applyContrib]
      constructor
      · rintro ((h | h) | ⟨c', hc', h⟩)
        · exact Or.inl h
        · exact Or.inr ⟨c, List.mem_cons_self _ _, h⟩
        · exact Or.inr ⟨c', List.mem_cons_of_mem _ hc', h⟩
      · rintro (h | ⟨c', hc', h⟩)
        · exact Or.inl (Or.inl h)
        · rcases List.mem_cons.mp hc' with hc1 | hc1
          · exact Or.inl (Or.inr (hc1 ▸ h))
          · exact Or.inr ⟨c', hc1, h⟩

/-! ## The two passes as folds over the contribution stream -/

theorem applyContrib_dirDelta (changes : List (String × ℤ)) (l : String) (cxi cxf : ℚ) :
    applyContrib changes (l, dirDelta cxi cxf)
      = if cxf > cxi then dictSet changes l (dictGet changes l - 1)
        else if cxf < cxi then dictSet changes l (dictGet changes l + 1)
        else changes := by
  unfold applyContrib dirDelta
  by_cases h1 : cxf > cxi
  · simp [h1, sub_eq_add_neg]
  · by_cases h2 : cxf < cxi
    · simp [h1, h2]
    · simp [h1, h2]

theorem applyContrib_neg_one (changes : List (String × ℤ)) (l : String) :
    applyContrib changes (l, -1) = dictSet changes l (dictGet changes l - 1) := by
  unfold applyContrib
  simp [sub_eq_add_neg]

theorem pass1_eq (cm : ℤ → Option String) (finals : List Detection) :
    ∀ (inits : List Detection) (changes : List (String × ℤ)) (matched : List ℤ),
    pass1 cm finals (changes, matched) inits
      = (((matchTrace finals matched inits).map (contribOf cm)).foldl applyContrib changes,
         matched ++ claimedIdx finals matched inits) := by
  intro inits
  induction inits with
  | nil => intro changes matched; simp [pass1, matchTrace, claimedIdx]
  | cons d rest ih =>
      intro changes matched
      rcases hfbm : find_best_match d finals matched with ⟨bm, i, dq⟩
      cases bm with
      | some b =>
          simp only [pass1, matchTrace, claimedIdx, hfbm, List.map_cons, List.foldl_cons]
          rw [ih]
          rw [contribOf]
          simp only []
          rw [applyContrib_dirDelta]
          simp
      | none =>
          simp only [pass1, matchTrace, claimedIdx, hfbm, List.map_cons, List.foldl_cons]
          rw [ih]
          rw [contribOf]
          simp only []
          rw [applyContrib_neg_one]

theorem pass2_eq (cm : ℤ → Option String) (matched : List ℤ) :
    ∀ (fs : List Detection) (i : ℕ) (changes : List (String × ℤ)),
    pass2 cm matched changes i fs
      = ((unmatchedAfterFrom matched i fs).map
          (fun d => (getLabel cm d.class_id, -1))).foldl applyContrib changes := by
  intro fs
  induction fs with
  | nil => intro i changes; simp [pass2, unmatchedAfterFrom]
  | cons d rest ih =>
      intro i changes
      by_cases hmem : (i : ℤ) ∈ matched
      · simp only [pass2, unmatchedAfterFrom, if_pos hmem]
        exact ih _ _
      · simp only [pass2, unmatchedAfterFrom, if_neg hmem, List.map_cons, List.foldl_cons]
        rw [ih, applyContrib_neg_one]

/-- Master description of one reconciliation cycle: `analyze_inventory_changes`
is the fold of the per-label contribution stream (matched pairs per the
direction rule, then `-1` per unmatched initial detection, then `-1` per
unclaimed final detection) over the empty dict. -/
theorem analyze_eq (init finals : List Detection) (cm : ℤ → Option String) :
    analyze_inventory_changes init finals cm
      = (((matchTrace finals [] init).map (contribOf cm))
          ++ ((unmatchedAfterFrom (claimedIdx finals [] init) 0 finals).map
              (fun u : Detection => (getLabel cm u.class_id, (-1 : ℤ))))).foldl
            applyContrib [] := by
  unfold analyze_inventory_changes
  simp only [pass1_eq, List.nil_append]
  rw [pass2_eq, List.foldl_append]

/-! ## The matcher loop invariant -/

theorem fbmGo_inv (finals : List Detection) (c : ℚ × ℚ) (cid : ℤ) (matched : List ℤ) :
    ∀ (rest : List Detection) (i : ℕ) (st : FbmState),
    finals.drop i = rest → FbmInv finals c cid matched i st →
    FbmInv finals c cid matched finals.length (fbmGo c cid matched i rest st) := by
  intro rest
  induction rest with
  | nil =>
      intro i st hdrop hinv
      have hle : finals.length ≤ i := List.drop_eq_nil_iff.mp hdrop
      simp only [fbmGo]
      refine ⟨fun h1 => ?_, fun bm hbm => ?_⟩
      · rcases hinv.none_case h1 with ⟨he, hno⟩
        exact ⟨he, fun j hj => hno j (lt_of_lt_of_le hj hle)⟩
      · rcases hinv.some_case bm hbm with
          ⟨j, hj, hjn, hidx, hget, hcls, hnm, hdist, hmin⟩
        exact ⟨j, hj, hj, hidx, hget, hcls, hnm, hdist,
          fun k hk hkn => hmin k hk (lt_of_lt_of_le hkn hle)⟩
  | cons fd rest' ih =>
      intro i st hdrop hinv
      have hi : i < finals.length := by
        by_contra hcon
        rw [List.drop_eq_nil_of_le (le_of_not_lt hcon)] at hdrop
        cases hdrop
      have hdrop' := hdrop
      rw [List.drop_eq_get_cons hi] at hdrop'
      have hgetfd : finals.get ⟨i, hi⟩ = fd := (List.cons.injEq _ _ _ _ ▸ hdrop').1
      have hrest : finals.drop (i + 1) = rest' := (List.cons.injEq _ _ _ _ ▸ hdrop').2
      simp only [fbmGo]
      by_cases hskip : fd.class_id ≠ cid ∨ (i : ℤ) ∈ matched
      · rw [if_pos hskip]
        refine ih (i + 1) st hrest ⟨fun h1 => ?_, fun bm hbm => ?_⟩
        · rcases hinv.none_case h1 with ⟨he, hno⟩
          refine ⟨he, fun j hj => ?_⟩
          rcases Nat.lt_succ_iff_lt_or_eq.mp hj with hj' | hj'
          · exact hno j hj'
          · subst hj'
            rintro ⟨h, hc1, hc2⟩
            rw [hgetfd] at hc1
            rcases hskip with hs | hs
            · exact hs hc1
            · exact hc2 hs
        · rcases hinv.some_case bm hbm with
            ⟨j, hj, hjn, hidx, hget, hcls, hnm, hdist, hmin⟩
          refine ⟨j, hj, Nat.lt_succ_of_lt hjn, hidx, hget, hcls, hnm, hdist, ?_⟩
          intro k hk hkn hkc hkm
          rcases Nat.lt_succ_iff_lt_or_eq.mp hkn with hk' | hk'
          · exact hmin k hk hk' hkc hkm
          · subst hk'
            rw [hgetfd] at hkc
            rcases hskip with hs | hs
            · exact absurd hkc hs
            · exact absurd hs hkm
      · push_neg at hskip
        rcases hskip with ⟨hcfd, hmfd⟩
        rw [if_neg (by push_neg; exact ⟨hcfd, hmfd⟩)]
        rcases hst22 : st.2.2 with _ | m
        · -- min_dist is still infinite: nothing kept yet, take this candidate
          have hst1 : st.1 = none := by
            rcases hopt : st.1 with _ | bm
            · rfl
            · rcases hinv.some_case bm hopt with ⟨j, hj, hjn, hidx, hget, hcls, hnm, hdist, hmin⟩
              rw [hst22] at hdist
              cases hdist
          rcases hinv.none_case hst1 with ⟨_, hno⟩
          refine ih (i + 1) _ hrest ⟨fun h1 => by simpa using h1, fun bm hbm => ?_⟩
          have hbmfd : fd = bm := by simpa using hbm
          subst hbmfd
          refine ⟨i, hi, Nat.lt_succ_self i, rfl, hgetfd, hcfd, hmfd, rfl, ?_⟩
          intro k hk hkn hkc hkm
          rcases Nat.lt_succ_iff_lt_or_eq.mp hkn with hk' | hk'
          · exact absurd ⟨hk, hkc, hkm⟩ (hno k hk')
          · subst hk'
            rw [hgetfd]
            exact ⟨le_refl _, fun _ => le_refl _⟩
        · -- a best candidate was already kept
          have hbm0 : ∃ bm, st.1 = some bm := by
            rcases hopt : st.1 with _ | bm
            · rcases hinv.none_case hopt with ⟨he, _⟩
              rw [he] at hst22
              cases hst22
            · exact ⟨bm, rfl⟩
          rcases hbm0 with ⟨bm, hbm⟩
          rcases hinv.some_case bm hbm with ⟨j, hj, hjn, hidx, hget, hcls, hnm, hdist, hmin⟩
          have hm : m = dist2 c (centroidD bm) := by
            rw [hst22] at hdist
            exact (Option.some.injEq _ _ ▸ hdist)
          change FbmInv finals c cid matched finals.length
            (fbmGo c cid matched (i + 1) rest'
              (if dist2 c (centroidD fd) < m then
                (some fd, (i : ℤ), some (dist2 c (centroidD fd))) else st))
          by_cases hlt : dist2 c (centroidD fd) < m
          · rw [if_pos hlt]
            refine ih (i + 1) _ hrest ⟨fun h1 => by simpa using h1, fun bm' hbm' => ?_⟩
            have hbmfd : fd = bm' := by simpa using hbm'
            subst hbmfd
            refine ⟨i, hi, Nat.lt_succ_self i, rfl, hgetfd, hcfd, hmfd, rfl, ?_⟩
            intro k hk hkn hkc hkm
            rcases Nat.lt_succ_iff_lt_or_eq.mp hkn with hk' | hk'
            · have := (hmin k hk hk' hkc hkm).1
              rw [← hm] at this
              constructor
              · exact le_trans (le_of_lt hlt) this
              · intro heq
                exfalso
                rw [heq] at this
                exact absurd (lt_of_lt_of_le hlt this) (lt_irrefl _)
            · subst hk'
              rw [hgetfd]
              exact ⟨le_refl _, fun _ => le_refl _⟩
          · rw [if_neg hlt]
            refine ih (i + 1) st hrest ⟨fun h1 => ?_, fun bm' hbm' => ?_⟩
            · rw [hbm] at h1
              cases h1
            · have hbmbm : bm = bm' := by
                rw [hbm] at hbm'
                exact Option.some.injEq _ _ ▸ hbm'
              subst hbmbm
              refine ⟨j, hj, Nat.lt_succ_of_lt hjn, hidx, hget, hcls, hnm, hdist, ?_⟩
              intro k hk hkn hkc hkm
              rcases Nat.lt_succ_iff_lt_or_eq.mp hkn with hk' | hk'
              · exact hmin k hk hk' hkc hkm
              · subst hk'
                rw [hgetfd]
                have hge : m ≤ dist2 c (centroidD fd) := le_of_not_lt hlt
                rw [hm] at hge
                exact ⟨hge, fun _ => le_of_lt hjn⟩

/-- The full invariant instantiated at `find_best_match`. -/
theorem find_best_match_inv (d : Detection) (finals : List Detection) (matched : List ℤ) :
    FbmInv finals (centroidD d) d.class_id matched finals.length
      (find_best_match d finals matched) := by
  refine fbmGo_inv finals (centroidD d) d.class_id matched finals 0 (none, -1, none)
    (by simp) ⟨fun _ => ⟨rfl, fun j hj => absurd hj (Nat.not_lt_zero j)⟩, fun bm hbm => ?_⟩
  cases hbm

/-! ## Consequences of the matcher invariant -/

/-- A successful match is an unclaimed same-class candidate at an in-range
index (helper shared by several developments below). -/
theorem fbm_some_elim (d : Detection) (finals : List Detection) (matched : List ℤ)
    (bm : Detection) (hbm : (find_best_match d finals matched).1 = some bm) :
    ∃ (j : ℕ) (hj : j < finals.length),
      (find_best_match d finals matched).2.1 = (j : ℤ)
      ∧ finals.get ⟨j, hj⟩ = bm ∧ bm.class_id = d.class_id ∧ (j : ℤ) ∉ matched := by
  rcases (find_best_match_inv d finals matched).some_case bm hbm with
    ⟨j, hj, _, hidx, hget, hcls, hnm, _, _⟩
  exact ⟨j, hj, hidx, hget, hcls, hnm⟩

/-- C1: the matcher pairs each before-detection with an unclaimed same-class
after-detection at minimum centroid distance, with no distance threshold (it
returns `none` exactly when every same-class after-index is already claimed),
and pass 1 claims the returned index immediately, before the remaining
before-detections are processed. -/
theorem find_best_match_greedy_spec (d : Detection) (finals : List Detection)
    (matched : List ℤ) :
    ((find_best_match d finals matched).1 = none ↔
      ∀ (j : ℕ) (hj : j < finals.length),
        (finals.get ⟨j, hj⟩).class_id = d.class_id → (j : ℤ) ∈ matched)
    ∧ (∀ bm, (find_best_match d finals matched).1 = some bm →
        ∃ (j : ℕ) (hj : j < finals.length),
          (find_best_match d finals matched).2.1 = (j : ℤ)
          ∧ finals.get ⟨j, hj⟩ = bm
          ∧ bm.class_id = d.class_id
          ∧ (j : ℤ) ∉ matched
          ∧ ∀ (k : ℕ) (hk : k < finals.length),
              (finals.get ⟨k, hk⟩).class_id = d.class_id → (k : ℤ) ∉ matched →
              dist2 (centroidD d) (centroidD bm)
                ≤ dist2 (centroidD d) (centroidD (finals.get ⟨k, hk⟩)))
    ∧ (∀ bm cm changes rest, (find_best_match d finals matched).1 = some bm →
        pass1 cm finals (changes, matched) (d :: rest)
          = pass1 cm finals
              (if (centroidD bm).1 > (centroidD d).1 then
                 dictSet changes (getLabel cm d.class_id)
                   (dictGet changes (getLabel cm d.class_id) - 1)
               else if (centroidD bm).1 < (centroidD d).1 then
                 dictSet changes (getLabel cm d.class_id)
                   (dictGet changes (getLabel cm d.class_id) + 1)
               else changes,
               matched ++ [(find_best_match d finals matched).2.1]) rest) := by
  have hinv := find_best_match_inv d finals matched
  refine ⟨⟨fun h => ?_, fun hall => ?_⟩, fun bm hbm => ?_, fun bm cm changes rest hbm => ?_⟩
  · intro j hj hc
    by_contra hm
    exact (hinv.none_case h).2 j hj ⟨hj, hc, hm⟩
  · rcases hopt : (find_best_match d finals matched).1 with _ | bm
    · rfl
    · exfalso
      rcases hinv.some_case bm hopt with ⟨j, hj, _, _, hget, hcls, hnm, _, _⟩
      exact hnm (hall j hj (by rw [hget]; exact hcls))
  · rcases hinv.some_case bm hbm with ⟨j, hj, _, hidx, hget, hcls, hnm, _, hmin⟩
    exact ⟨j, hj, hidx, hget, hcls, hnm,
      fun k hk hkc hkm => (hmin k hk hk hkc hkm).1⟩
  · rcases hr : find_best_match d finals matched with ⟨bm1, i, dq⟩
    rw [hr] at hbm
    simp only at hbm
    subst hbm
    simp [pass1, hr]

/-- C10: ties are broken by after-detection order — the matcher returns the
first index attaining the minimal centroid distance, so any other unclaimed
same-class candidate at the same distance has an index at least as large.
(Determinism on identical inputs is immediate: the embedding is a function of
its arguments.) -/
theorem find_best_match_tie_break (d : Detection) (finals : List Detection)
    (matched : List ℤ) (bm : Detection)
    (hbm : (find_best_match d finals matched).1 = some bm) :
    ∃ (j : ℕ) (hj : j < finals.length),
      (find_best_match d finals matched).2.1 = (j : ℤ)
      ∧ finals.get ⟨j, hj⟩ = bm
      ∧ ∀ (k : ℕ) (hk : k < finals.length),
          (finals.get ⟨k, hk⟩).class_id = d.class_id → (k : ℤ) ∉ matched →
          dist2 (centroidD d) (centroidD (finals.get ⟨k, hk⟩))
            = dist2 (centroidD d) (centroidD bm) → j ≤ k := by
  rcases (find_best_match_inv d finals matched).some_case bm hbm with
    ⟨j, hj, _, hidx, hget, _, _, _, hmin⟩
  exact ⟨j, hj, hidx, hget, fun k hk hkc hkm heq => (hmin k hk hk hkc hkm).2 heq⟩

/-! ## MatchResult index bookkeeping -/

theorem claimedIdx_range_notmem (finals : List Detection) :
    ∀ (inits : List Detection) (matched : List ℤ) (x : ℤ),
    x ∈ claimedIdx finals matched inits →
    (∃ j : ℕ, x = (j : ℤ) ∧ j < finals.length) ∧ x ∉ matched := by
  intro inits
  induction inits with
  | nil => intro matched x hx; simp [claimedIdx] at hx
  | cons d rest ih =>
      intro matched x hx
      rcases hr : find_best_match d finals matched with ⟨bm1, i, dq⟩
      cases bm1 with
      | none =>
          rw [claimedIdx, hr] at hx
          exact ih matched x hx
      | some b =>
          rw [claimedIdx, hr] at hx
          simp only [List.mem_cons] at hx
          rcases fbm_some_elim d finals matched b (by rw [hr]) with ⟨j, hj, hidx, _, _, hnm⟩
          rw [hr] at hidx
          simp only at hidx
          rcases hx with hx | hx
          · subst hx
            rw [hidx]
            exact ⟨⟨j, rfl, hj⟩, by rw [← hidx]; rw [hidx]; exact hnm⟩
          · rcases ih (matched ++ [i]) x hx with ⟨hrange, hnm'⟩
            exact ⟨hrange, fun hmem => hnm' (List.mem_append_left _ hmem)⟩

theorem claimedIdx_nodup (finals : List Detection) :
    ∀ (inits : List Detection) (matched : List ℤ),
    (claimedIdx finals matched inits).Nodup := by
  intro inits
  induction inits with
  | nil => intro matched; simp [claimedIdx]
  | cons d rest ih =>
      intro matched
      rcases hr : find_best_match d finals matched with ⟨bm1, i, dq⟩
      cases bm1 with
      | none =>
          rw [claimedIdx, hr]
          exact ih matched
      | some b =>
          rw [claimedIdx, hr]
          refine List.Nodup.cons ?_ (ih (matched ++ [i]))
          intro hmem
          have := (claimedIdx_range_notmem finals rest (matched ++ [i]) i hmem).2
          exact this (List.mem_append_right _ (List.mem_singleton.mpr rfl))

theorem matchPairsIdx_snd_eq (finals : List Detection) :
    ∀ (inits : List Detection) (matched : List ℤ) (k : ℕ),
    (matchPairsIdx finals matched k inits).map Prod.snd
      = claimedIdx finals matched inits := by
  intro inits
  induction inits with
  | nil => intro matched k; simp [matchPairsIdx, claimedIdx]
  | cons d rest ih =>
      intro matched k
      rcases hr : find_best_match d finals matched with ⟨bm1, i, dq⟩
      cases bm1 with
      | none =>
          rw [matchPairsIdx, claimedIdx, hr]
          exact ih matched (k + 1)
      | some b =>
          rw [matchPairsIdx, claimedIdx, hr, List.map_cons]
          rw [ih (matched ++ [i]) (k + 1)]

theorem matchPairsIdx_fst_lb (finals : List Detection) :
    ∀ (inits : List Detection) (matched : List ℤ) (k : ℕ) (p : ℕ × ℤ),
    p ∈ matchPairsIdx finals matched k inits → k ≤ p.1 := by
  intro inits
  induction inits with
  | nil => intro matched k p hp; simp [matchPairsIdx] at hp
  | cons d rest ih =>
      intro matched k p hp
      rcases hr : find_best_match d finals matched with ⟨bm1, i, dq⟩
      cases bm1 with
      | none =>
          rw [matchPairsIdx, hr] at hp
          exact le_trans (Nat.le_succ k) (ih matched (k + 1) p hp)
      | some b =>
          rw [matchPairsIdx, hr] at hp
          rcases List.mem_cons.mp hp with hp | hp
          · rw [hp]
          · exact le_trans (Nat.le_succ k) (ih (matched ++ [i]) (k + 1) p hp)

theorem matchPairsIdx_fst_nodup (finals : List Detection) :
    ∀ (inits : List Detection) (matched : List ℤ) (k : ℕ),
    ((matchPairsIdx finals matched k inits).map Prod.fst).Nodup := by
  intro inits
  induction inits with
  | nil => intro matched k; simp [matchPairsIdx]
  | cons d rest ih =>
      intro matched k
      rcases hr : find_best_match d finals matched with ⟨bm1, i, dq⟩
      cases bm1 with
      | none =>
          rw [matchPairsIdx, hr]
          exact ih matched (k + 1)
      | some b =>
          rw [matchPairsIdx, hr, List.map_cons]
          refine List.Nodup.cons ?_ (ih (matched ++ [i]) (k + 1))
          intro hmem
          rcases List.mem_map.mp hmem with ⟨p, hp, hfst⟩
          have := matchPairsIdx_fst_lb finals rest (matched ++ [i]) (k + 1) p hp
          omega

theorem unmatchedBeforeIdx_lb (finals : List Detection) :
    ∀ (inits : List Detection) (matched : List ℤ) (k : ℕ) (x : ℕ),
    x ∈ unmatchedBeforeIdx finals matched k inits → k ≤ x := by
  intro inits
  induction inits with
  | nil => intro matched k x hx; simp [unmatchedBeforeIdx] at hx
  | cons d rest ih =>
      intro matched k x hx
      rcases hr : find_best_match d finals matched with ⟨bm1, i, dq⟩
      cases bm1 with
      | none =>
          rw [unmatchedBeforeIdx, hr] at hx
          rcases List.mem_cons.mp hx with hx | hx
          · rw [hx]
          · exact le_trans (Nat.le_succ k) (ih matched (k + 1) x hx)
      | some b =>
          rw [unmatchedBeforeIdx, hr] at hx
          exact le_trans (Nat.le_succ k) (ih (matched ++ [i]) (k + 1) x hx)

theorem before_partition (finals : List Detection) :
    ∀ (inits : List Detection) (matched : List ℤ) (k : ℕ) (x : ℕ),
    (x ∈ (matchPairsIdx finals matched k inits).map Prod.fst
      ∨ x ∈ unmatchedBeforeIdx finals matched k inits)
    ↔ (k ≤ x ∧ x < k + inits.length) := by
  intro inits
  induction inits with
  | nil =>
      intro matched k x
      simp [matchPairsIdx, unmatchedBeforeIdx]
  | cons d rest ih =>
      intro matched k x
      rcases hr : find_best_match d finals matched with ⟨bm1, i, dq⟩
      cases bm1 with
      | none =>
          rw [matchPairsIdx, unmatchedBeforeIdx, hr]
          simp only [List.mem_cons, List.length_cons]
          constructor
          · rintro (hx | hx | hx)
            · have := (ih matched (k + 1) x).mp (Or.inl hx)
              omega
            · omega
            · have := (ih matched (k + 1) x).mp (Or.inr hx)
              omega
          · intro hx
            by_cases hxk : x = k
            · exact Or.inr (Or.inl hxk)
            · rcases (ih matched (k + 1) x).mpr (by omega) with h | h
              · exact Or.inl h
              · exact Or.inr (Or.inr h)
      | some b =>
          rw [matchPairsIdx, unmatchedBeforeIdx, hr, List.map_cons]
          simp only [List.mem_cons, List.length_cons]
          constructor
          · rintro ((hx | hx) | hx)
            · omega
            · have := (ih (matched ++ [i]) (k + 1) x).mp (Or.inl hx)
              omega
            · have := (ih (matched ++ [i]) (k + 1) x).mp (Or.inr hx)
              omega
          · intro hx
            by_cases hxk : x = k
            · exact Or.inl (Or.inl hxk)
            · rcases (ih (matched ++ [i]) (k + 1) x).mpr (by omega) with h | h
              · exact Or.inl (Or.inr h)
              · exact Or.inr h

theorem before_disjoint (finals : List Detection) :
    ∀ (inits : List Detection) (matched : List ℤ) (k : ℕ) (x : ℕ),
    x ∈ (matchPairsIdx finals matched k inits).map Prod.fst →
    x ∈ unmatchedBeforeIdx finals matched k inits → False := by
  intro inits
  induction inits with
  | nil => intro matched k x hx _; simp [matchPairsIdx] at hx
  | cons d rest ih =>
      intro matched k x hx hy
      rcases hr : find_best_match d finals matched with ⟨bm1, i, dq⟩
      cases bm1 with
      | none =>
          rw [matchPairsIdx, hr] at hx
          rw [unmatchedBeforeIdx, hr] at hy
          rcases List.mem_cons.mp hy with hy | hy
          · rcases List.mem_map.mp hx with ⟨p, hp, hfst⟩
            have := matchPairsIdx_fst_lb finals rest matched (k + 1) p hp
            omega
          · exact ih matched (k + 1) x hx hy
      | some b =>
          rw [matchPairsIdx, hr, List.map_cons] at hx
          rw [unmatchedBeforeIdx, hr] at hy
          rcases List.mem_cons.mp hx with hx | hx
          · have := unmatchedBeforeIdx_lb finals rest (matched ++ [i]) (k + 1) x hy
            omega
          · exact ih (matched ++ [i]) (k + 1) x hx hy

theorem unmatchedAfterIdx_mem (matched : List ℤ) :
    ∀ (fs : List Detection) (i : ℕ) (x : ℕ),
    x ∈ unmatchedAfterIdx matched i fs
      ↔ (i ≤ x ∧ x < i + fs.length ∧ (x : ℤ) ∉ matched) := by
  intro fs
  induction fs with
  | nil => intro i x; simp [unmatchedAfterIdx]; omega
  | cons d rest ih =>
      intro i x
      rw [unmatchedAfterIdx]
      by_cases hm : (i : ℤ) ∈ matched
      · rw [if_pos hm, ih (i + 1) x]
        simp only [List.length_cons]
        constructor
        · rintro ⟨h1, h2, h3⟩
          exact ⟨by omega, by omega, h3⟩
        · rintro ⟨h1, h2, h3⟩
          have hxi : x ≠ i := by
            intro hx
            rw [hx] at h3
            exact h3 hm
          exact ⟨by omega, by omega, h3⟩
      · rw [if_neg hm]
        simp only [List.mem_cons, List.length_cons]
        rw [ih (i + 1) x]
        constructor
        · rintro (hx | ⟨h1, h2, h3⟩)
          · subst hx
            exact ⟨le_refl x, by omega, hm⟩
          · exact ⟨by omega, by omega, h3⟩
        · rintro ⟨h1, h2, h3⟩
          by_cases hxi : x = i
          · exact Or.inl hxi
          · exact Or.inr ⟨by omega, by omega, h3⟩

/-- C9: in the MatchResult of the greedy matcher each before-index and each
after-index appears in at most one pair; a before-index is unmatched iff it
appears in no pair, and an after-index is unmatched iff it appears in no pair;
and the claimed-index set computed by pass 1 of the code is exactly the set of
paired after-indices. -/
theorem match_result_indices_unique (init finals : List Detection) :
    ((matchPairsIdx finals [] 0 init).map Prod.fst).Nodup
    ∧ ((matchPairsIdx finals [] 0 init).map Prod.snd).Nodup
    ∧ (∀ k : ℕ, k ∈ unmatchedBeforeIdx finals [] 0 init
        ↔ (k < init.length ∧ ∀ j : ℤ, (k, j) ∉ matchPairsIdx finals [] 0 init))
    ∧ (∀ j : ℕ, j ∈ unmatchedAfterIdx (claimedIdx finals [] init) 0 finals
        ↔ (j < finals.length
            ∧ ∀ k : ℕ, (k, (j : ℤ)) ∉ matchPairsIdx finals [] 0 init))
    ∧ (∀ (cm : ℤ → Option String) (changes : List (String × ℤ)),
        (pass1 cm finals (changes, []) init).2
          = (matchPairsIdx finals [] 0 init).map Prod.snd) := by
  refine ⟨matchPairsIdx_fst_nodup finals init [] 0, ?_, fun k => ⟨fun hk => ?_, fun hk => ?_⟩,
    fun j => ?_, fun cm changes => ?_⟩
  · rw [matchPairsIdx_snd_eq]
    exact claimedIdx_nodup finals init []
  · constructor
    · have := (before_partition finals init [] 0 k).mpr
      have hmem := (before_partition finals init [] 0 k).mp (Or.inr hk)
      omega
    · intro j hj
      exact before_disjoint finals init [] 0 k
        (List.mem_map.mpr ⟨(k, j), hj, rfl⟩) hk
  · rcases hk with ⟨hlt, hnone⟩
    rcases (before_partition finals init [] 0 k).mpr (by omega) with h | h
    · exfalso
      rcases List.mem_map.mp h with ⟨p, hp, hfst⟩
      have hpe : p = (k, p.2) := by
        rw [Prod.ext_iff]
        exact ⟨hfst, rfl⟩
      exact hnone p.2 (hpe ▸ hp)
    · exact h
  · rw [unmatchedAfterIdx_mem]
    constructor
    · rintro ⟨_, hlt, hnm⟩
      refine ⟨by omega, fun k hk => hnm ?_⟩
      rw [← matchPairsIdx_snd_eq finals init [] 0]
      exact List.mem_map.mpr ⟨(k, (j : ℤ)), hk, rfl⟩
    · rintro ⟨hlt, hnone⟩
      refine ⟨Nat.zero_le j, by omega, fun hmem => ?_⟩
      rw [← matchPairsIdx_snd_eq finals init [] 0] at hmem
      rcases List.mem_map.mp hmem with ⟨p, hp, hsnd⟩
      have hpe : p = (p.1, (j : ℤ)) := by
        rw [Prod.ext_iff]
        exact ⟨rfl, hsnd⟩
      exact hnone p.1 (hpe ▸ hp)
  · rw [pass1_eq, matchPairsIdx_snd_eq]
    simp

/-! ## Per-label and total accounting -/

theorem sum_filter_eq_sum_ite (cs : List (String × ℤ)) (l : String) :
    ((cs.filter (fun c => c.1 = l)).map Prod.snd).sum
      = (cs.map (fun c => if c.1 = l then c.2 else 0)).sum := by
  induction cs with
  | nil => rfl
  | cons c cs ih =>
      by_cases hc : c.1 = l
      · rw [List.filter_cons_of_pos (by simpa using hc), List.map_cons, List.sum_cons,
          List.map_cons, List.sum_cons, if_pos hc, ih]
      · rw [List.filter_cons_of_neg (by simpa using hc), List.map_cons, List.sum_cons,
          if_neg hc, ih, zero_add]

theorem sum_map_ite_count {α : Type} (t : List α) (p : α → Prop) [DecidablePred p] (c : ℤ) :
    (t.map (fun u => if p u then c else 0)).sum
      = c * (t.countP (fun u => decide (p u)) : ℤ) := by
  induction t with
  | nil => simp
  | cons a t ih =>
      rw [List.map_cons, List.sum_cons, ih, List.countP_cons]
      by_cases hp : p a
      · simp [hp]
        push_cast
        ring
      · simp [hp]

theorem sum_map_const {α : Type} (t : List α) (c : ℤ) :
    (t.map (fun _ => c)).sum = c * (t.length : ℤ) := by
  induction t with
  | nil => simp
  | cons a t ih =>
      rw [List.map_cons, List.sum_cons, ih, List.length_cons]
      push_cast
      ring

theorem contrib_sum_split (cm : ℤ → Option String) :
    ∀ (t : List (Detection × Option Detection)),
    ((t.map (contribOf cm)).map Prod.snd).sum
      = ((t.filterMap (fun q => q.2.map (fun bm => (q.1, bm)))).map
          (fun pr : Detection × Detection =>
            dirDelta (centroidD pr.1).1 (centroidD pr.2).1)).sum
        + (-1) * (t.countP (fun q => q.2.isNone) : ℤ) := by
  intro t
  induction t with
  | nil => simp
  | cons q t ih =>
      rcases q with ⟨d, o⟩
      cases o with
      | none =>
          simp only [List.map_cons, List.sum_cons, List.filterMap_cons, List.countP_cons]
          simp only [contribOf, Option.map_none']
          rw [ih]
          simp
          push_cast
          ring
      | some bm =>
          simp only [List.map_cons, List.sum_cons, List.filterMap_cons, List.countP_cons]
          simp only [contribOf, Option.map_some']
          rw [List.map_cons, List.sum_cons, ih]
          simp
          ring

theorem dirDelta_eq_zero_iff (a b : ℚ) : dirDelta a b = 0 ↔ b = a := by
  unfold dirDelta
  by_cases h1 : b > a
  · simp [h1]
    intro h
    rw [h] at h1
    exact absurd h1 (lt_irrefl a)
  · by_cases h2 : b < a
    · simp [h1, h2]
      intro h
      rw [h] at h2
      exact absurd h2 (lt_irrefl a)
    · simp [h1, h2]
      exact le_antisymm (le_of_not_lt h1) (le_of_not_lt h2)

/-- C6: the total delta summed across all labels of one reconciliation cycle
equals the sum of the direction-rule values over matched pairs, plus (-1) per
unmatched before-detection, plus (-1) per unmatched after-detection. -/
theorem analyze_total_delta (init finals : List Detection) (cm : ℤ → Option String) :
    sumVals (analyze_inventory_changes init finals cm)
      = (((matchTrace finals [] init).filterMap
            (fun q => q.2.map (fun bm => (q.1, bm)))).map
          (fun pr : Detection × Detection =>
            dirDelta (centroidD pr.1).1 (centroidD pr.2).1)).sum
        + (-1) * (((matchTrace finals [] init).countP (fun q => q.2.isNone) : ℕ) : ℤ)
        + (-1) * ((unmatchedAfterFrom (claimedIdx finals [] init) 0 finals).length : ℤ) := by
  rw [analyze_eq]
  rw [foldl_applyContrib_sumVals _ _ (by simp [KeysNodup])]
  simp only [sumVals, List.map_nil, List.sum_nil, List.map_append, List.sum_append, zero_add]
  rw [contrib_sum_split]
  rw [List.map_map]
  rw [show (Prod.snd ∘ fun u : Detection => (getLabel cm u.class_id, (-1 : ℤ)))
      = fun _ : Detection => (-1 : ℤ) from rfl]
  rw [sum_map_const]

theorem contrib_ite_eq (cm : ℤ → Option String) (l : String) :
    ((fun c : String × ℤ => if c.1 = l then c.2 else 0) ∘ contribOf cm)
      = fun q : Detection × Option Detection =>
          if getLabel cm q.1.class_id = l then
            (match q.2 with
             | some bm =>
                 if (centroidD bm).1 > (centroidD q.1).1 then (-1 : ℤ)
                 else if (centroidD bm).1 < (centroidD q.1).1 then 1 else 0
             | none => -1)
          else 0 := by
  funext q
  rcases q with ⟨d, o⟩
  cases o <;> simp [contribOf, dirDelta, Function.comp]

/-- C2: the per-label delta of one reconciliation cycle is the integer sum,
over the whole cycle, of the per-step contributions, where a matched pair with
this label contributes per the horizontal-coordinate rule (`-1` if the match's
cx is larger, `+1` if smaller, `0` if equal — the vertical coordinate is never
consulted), and the unmatched entries contribute `-1`. -/
theorem analyze_label_delta (init finals : List Detection) (cm : ℤ → Option String)
    (l : String) :
    dictGet (analyze_inventory_changes init finals cm) l
      = ((matchTrace finals [] init).map (fun q =>
            if getLabel cm q.1.class_id = l then
              (match q.2 with
               | some bm =>
                   if (centroidD bm).1 > (centroidD q.1).1 then (-1 : ℤ)
                   else if (centroidD bm).1 < (centroidD q.1).1 then 1 else 0
               | none => -1)
            else 0)).sum
        + (-1) * ((unmatchedAfterFrom (claimedIdx finals [] init) 0 finals).countP
            (fun u => getLabel cm u.class_id = l) : ℤ) := by
  rw [analyze_eq, foldl_applyContrib_dictGet]
  rw [List.filter_append, List.map_append, List.sum_append]
  rw [sum_filter_eq_sum_ite, sum_filter_eq_sum_ite]
  rw [List.map_map, List.map_map]
  rw [contrib_ite_eq]
  rw [show ((fun c : String × ℤ => if c.1 = l then c.2 else 0)
      ∘ fun u : Detection => (getLabel cm u.class_id, (-1 : ℤ)))
      = fun u : Detection => if getLabel cm u.class_id = l then (-1 : ℤ) else 0 from rfl]
  rw [sum_map_ite_count]
  simp [dictGet]

/-- C3: an unmatched before-detection contributes `-1` to its label in pass 1,
and pass 2 contributes `-1` to the label of every unclaimed after-detection
(a sale, not a restock). -/
theorem unmatched_delta_minus_one (cm : ℤ → Option String) (finals : List Detection) :
    (∀ (matched : List ℤ) (changes : List (String × ℤ)) (d : Detection),
      (find_best_match d finals matched).1 = none →
      ∀ l, dictGet (pass1 cm finals (changes, matched) [d]).1 l
        = dictGet changes l + (if getLabel cm d.class_id = l then -1 else 0))
    ∧ (∀ (matched : List ℤ) (changes : List (String × ℤ)) (l : String),
        dictGet (pass2 cm matched changes 0 finals) l
          = dictGet changes l
            + (-1) * ((unmatchedAfterFrom matched 0 finals).countP
                (fun u => getLabel cm u.class_id = l) : ℤ)) := by
  constructor
  · intro matched changes d hnone l
    rcases hr : find_best_match d finals matched with ⟨bm1, i, dq⟩
    rw [hr] at hnone
    simp only at hnone
    subst hnone
    simp only [pass1, hr]
    by_cases hl : getLabel cm d.class_id = l
    · rw [if_pos hl, ← hl, dictGet_dictSet_self]
      ring
    · rw [if_neg hl, dictGet_dictSet_ne _ _ _ _ (fun h => hl h.symm)]
      ring
  · intro matched changes l
    rw [pass2_eq, foldl_applyContrib_dictGet, sum_filter_eq_sum_ite, List.map_map]
    rw [show ((fun c : String × ℤ => if c.1 = l then c.2 else 0)
        ∘ fun u : Detection => (getLabel cm u.class_id, (-1 : ℤ)))
        = fun u : Detection => if getLabel cm u.class_id = l then (-1 : ℤ) else 0 from rfl]
    rw [sum_map_ite_count]

theorem movedOrGone_iff_contrib_ne (cm : ℤ → Option String)
    (q : Detection × Option Detection) :
    movedOrGone q = true ↔ (contribOf cm q).2 ≠ 0 := by
  rcases q with ⟨d, o⟩
  cases o with
  | none => simp [movedOrGone, contribOf]
  | some bm =>
      simp only [movedOrGone, contribOf, decide_eq_true_eq]
      rw [Ne, Ne, dirDelta_eq_zero_iff]

/-- C8 counterexample: a cycle in which one item of a class moves right (-1)
and another moves left (+1) leaves the class label present in the returned
mapping with net delta 0 — zero-delta labels are not always omitted. -/
theorem analyze_zero_delta_label_cex :
    hasKey (analyze_inventory_changes [dW1, dW2] [fW1, fW2] cmW) "skittles" = true
    ∧ dictGet (analyze_inventory_changes [dW1, dW2] [fW1, fW2] cmW) "skittles" = 0 := by
  with_unfolding_all decide

/-- C8 amended: a label appears in the returned mapping iff some step of the
cycle contributed a nonzero delta to it — an unmatched before-detection, a
matched pair whose horizontal centroid moved, or an unclaimed after-detection.
A matched pair with unchanged cx creates no entry, but a label whose nonzero
contributions cancel appears with value 0. -/
theorem analyze_keys_iff (init finals : List Detection) (cm : ℤ → Option String)
    (l : String) :
    hasKey (analyze_inventory_changes init finals cm) l = true
      ↔ ((∃ q ∈ matchTrace finals [] init,
            getLabel cm q.1.class_id = l ∧ movedOrGone q = true)
          ∨ ∃ u ∈ unmatchedAfterFrom (claimedIdx finals [] init) 0 finals,
              getLabel cm u.class_id = l) := by
  rw [analyze_eq, foldl_applyContrib_hasKey]
  constructor
  · rintro (h | ⟨c, hc, hcl, hcnz⟩)
    · simp [hasKey] at h
    · rcases List.mem_append.mp hc with hc | hc
      · rcases List.mem_map.mp hc with ⟨q, hq, hqe⟩
        left
        refine ⟨q, hq, ?_, ?_⟩
        · rw [← hqe] at hcl
          exact hcl
        · rw [movedOrGone_iff_contrib_ne cm, hqe]
          exact hcnz
      · rcases List.mem_map.mp hc with ⟨u, hu, hue⟩
        right
        refine ⟨u, hu, ?_⟩
        rw [← hue] at hcl
        exact hcl
  · rintro (⟨q, hq, hql, hqm⟩ | ⟨u, hu, hul⟩)
    · right
      refine ⟨contribOf cm q, List.mem_append_left _ (List.mem_map.mpr ⟨q, hq, rfl⟩),
        hql, ?_⟩
      rw [← movedOrGone_iff_contrib_ne cm]
      exact hqm
    · right
      refine ⟨(getLabel cm u.class_id, -1),
        List.mem_append_right _ (List.mem_map.mpr ⟨u, hu, rfl⟩), hul, by norm_num⟩

/-! ## The inventory updater -/

theorem dictGet_applyStep (store : List (String × ℤ)) (c : String × ℤ) (l : String) :
    dictGet (applyStep store c) l = dictGet store l + (if c.1 = l then c.2 else 0) := by
  unfold applyStep
  by_cases hk : hasKey store c.1
  · rw [if_pos hk]
    by_cases hc : c.1 = l
    · rw [if_pos hc, ← hc, dictGet_dictSet_self]
    · rw [if_neg hc, dictGet_dictSet_ne _ _ _ _ (fun h => hc h.symm), add_zero]
  · rw [if_neg hk]
    have hz : dictGet store c.1 = 0 := dictGet_of_not_hasKey _ _ (by simpa using hk)
    by_cases hc : c.1 = l
    · rw [if_pos hc, ← hc, dictGet_dictSet_self, dictGet_dictSet_self, hz]
    · rw [if_neg hc, dictGet_dictSet_ne _ _ _ _ (fun h => hc h.symm),
        dictGet_dictSet_ne _ _ _ _ (fun h => hc h.symm), add_zero]

theorem hasKey_applyStep (store : List (String × ℤ)) (c : String × ℤ) (l : String) :
    hasKey (applyStep store c) l = true ↔ (c.1 = l ∨ hasKey store l = true) := by
  unfold applyStep
  by_cases hk : hasKey store c.1
  · rw [if_pos hk, hasKey_dictSet]
    constructor
    · rintro (h | h)
      · exact Or.inl h.symm
      · exact Or.inr h
    · rintro (h | h)
      · exact Or.inl h.symm
      · exact Or.inr h
  · rw [if_neg hk, hasKey_dictSet]
    constructor
    · rintro (h | h)
      · exact Or.inl h.symm
      · rcases (hasKey_dictSet _ _ _ _).mp h with h | h
        · exact Or.inl h.symm
        · exact Or.inr h
    · rintro (h | h)
      · exact Or.inl h.symm
      · exact Or.inr ((hasKey_dictSet _ _ _ _).mpr (Or.inr h))

theorem foldl_applyStep_spec :
    ∀ (cs : List (String × ℤ)) (store : List (String × ℤ)), KeysNodup cs →
    (∀ l, dictGet (cs.foldl applyStep store) l = dictGet store l + dictGet cs l)
    ∧ (∀ l, hasKey (cs.foldl applyStep store) l = true
        ↔ (hasKey store l = true ∨ hasKey cs l = true)) := by
  intro cs
  induction cs with
  | nil =>
      intro store _
      refine ⟨fun l => by simp [dictGet], fun l => by simp [hasKey]⟩
  | cons c cs ih =>
      intro store hnd
      have htl : KeysNodup cs := by
        rw [KeysNodup, List.map_cons, List.nodup_cons] at hnd
        exact hnd.2
      have hck : hasKey cs c.1 = false := not_hasKey_of_keysNodup_cons c cs hnd
      rcases ih (applyStep store c) htl with ⟨ihget, ihkey⟩
      refine ⟨fun l => ?_, fun l => ?_⟩
      · rw [List.foldl_cons, ihget l, dictGet_applyStep, dictGet_cons]
        by_cases hc : c.1 = l
        · rw [if_pos hc, if_pos hc]
          have : dictGet cs l = 0 := dictGet_of_not_hasKey _ _ (by rw [← hc]; exact hck)
          rw [this]
          ring
        · rw [if_neg hc, if_neg hc]
          ring
      · rw [List.foldl_cons, ihkey l, hasKey_applyStep, hasKey_cons]
        simp only [Bool.or_eq_true, decide_eq_true_eq]
        tauto

/-- C4: `apply_inventory_updates` returns a store in which every label of the
changes dict gains exactly its delta (an absent label counting as 0 first,
with no clamping, so counts may go negative), every other label keeps its
count and presence, and applying an empty changes dict returns the store
itself.  The embedding is a pure function, so the caller's store value is
never mutated. -/
theorem apply_inventory_updates_spec (store changes : List (String × ℤ))
    (hnd : KeysNodup changes) :
    (∀ l, hasKey changes l = true →
        dictGet (apply_inventory_updates store changes) l
          = dictGet store l + dictGet changes l)
    ∧ (∀ l, hasKey changes l = false →
        dictGet (apply_inventory_updates store changes) l = dictGet store l
        ∧ hasKey (apply_inventory_updates store changes) l = hasKey store l)
    ∧ apply_inventory_updates store [] = store := by
  refine ⟨fun l _ => ?_, fun l hk => ?_, rfl⟩
  · cases changes with
    | nil => simp [apply_inventory_updates, dictGet]
    | cons c cs =>
        have h := (foldl_applyStep_spec (c :: cs) store hnd).1 l
        simpa [apply_inventory_updates] using h
  · cases changes with
    | nil =>
        refine ⟨rfl, rfl⟩
    | cons c cs =>
        rcases foldl_applyStep_spec (c :: cs) store hnd with ⟨hget, hkey⟩
        constructor
        · have := hget l
          rw [dictGet_of_not_hasKey _ _ hk] at this
          simpa [apply_inventory_updates] using this
        · have hiff := hkey l
          rw [hk] at hiff
          have happ : apply_inventory_updates store (c :: cs) = (c :: cs).foldl applyStep store := by
            simp [apply_inventory_updates]
          rw [happ]
          rcases Bool.eq_false_or_eq_true (hasKey ((c :: cs).foldl applyStep store) l)
            with ht | hf
          · rw [ht]
            rcases hiff.mp ht with h | h
            · rw [h]
            · cases h
          · rw [hf]
            rcases Bool.eq_false_or_eq_true (hasKey store l) with hst | hsf
            · have hc2 := hiff.mpr (Or.inl hst)
              rw [hf] at hc2
              cases hc2
            · rw [hsf]

/-! ## The centroid calculator -/

/-- C5 counterexample: on the bbox `[10, 0, 0, 10]`, which has
`xmin = 10 > xmax = 0`, `calculate_centroid` does not fail — it returns the
midpoint `(5, 5)`.  The source performs no ordering validation and defines no
`InputError`. -/
theorem calculate_centroid_no_validation_cex :
    (10 : ℚ) > 0 ∧ calculate_centroid [10, 0, 0, 10] = some (5, 5) := by
  with_unfolding_all decide

/-- C5 amended: `calculate_centroid` fails (with a generic unpacking error,
not a dedicated `InputError`) exactly when the bbox does not consist of
exactly four coordinates; on any four-coordinate bbox — including one with
`xmin > xmax` or `ymin > ymax` — it returns the midpoint unconditionally. -/
theorem calculate_centroid_amended (bbox : List ℚ) :
    (bbox.length ≠ 4 → calculate_centroid bbox = none)
    ∧ (∀ a b c d : ℚ, bbox = [a, b, c, d] →
        calculate_centroid bbox = some ((a + c) / 2, (b + d) / 2)) := by
  constructor
  · intro h
    rcases bbox with _ | ⟨a, _ | ⟨b, _ | ⟨c, _ | ⟨d, _ | ⟨e, rest⟩⟩⟩⟩⟩
    · rfl
    · rfl
    · rfl
    · rfl
    · exact absurd rfl h
    · rfl
  · rintro a b c d rfl
    rfl

/-- C5 amended, witness: a three-coordinate bbox fails; a four-coordinate bbox
with ordinary coordinates yields its midpoint. -/
theorem calculate_centroid_amended_witness :
    calculate_centroid [1, 2, 3] = none
    ∧ calculate_centroid [0, 0, 4, 2] = some (2, 1) := by
  constructor
  · exact (calculate_centroid_amended [1, 2, 3]).1 (by decide)
  · have h := (calculate_centroid_amended [0, 0, 4, 2]).2 0 0 4 2 rfl
    rw [h]
    norm_num

/-- C7: on every valid bbox (four coordinates, `xmin ≤ xmax`, `ymin ≤ ymax`)
the centroid calculator returns exactly the arithmetic midpoint, and the
pipeline centroid of a detection depends only on its bbox — never on
`class_id` or `confidence`.  The embedding is a pure function (no side
effects). -/
theorem calculate_centroid_midpoint (xmin ymin xmax ymax : ℚ)
    (hx : xmin ≤ xmax) (hy : ymin ≤ ymax) :
    calculate_centroid [xmin, ymin, xmax, ymax]
      = some ((xmin + xmax) / 2, (ymin + ymax) / 2)
    ∧ ∀ (c₁ c₂ : ℤ) (k₁ k₂ : ℚ),
        centroidD ⟨c₁, ⟨xmin, ymin, xmax, ymax⟩, k₁⟩
          = centroidD ⟨c₂, ⟨xmin, ymin, xmax, ymax⟩, k₂⟩ :=
  ⟨rfl, fun _ _ _ _ => rfl⟩

/-- C7 witness at a concrete valid bbox. -/
theorem calculate_centroid_midpoint_witness :
    calculate_centroid [0, 0, 10, 10] = some (5, 5) := by
  have h := (calculate_centroid_midpoint 0 0 10 10 (by norm_num) (by norm_num)).1
  rw [h]
  norm_num

/-! ## Witness instantiations of the remaining theorems -/

/-- C1 witness: with before-detection `dT` and after-list `[fT0, fT1]` (both
same class, both unclaimed), the matcher returns a minimal-distance candidate. -/
theorem find_best_match_greedy_spec_witness :
    ∃ (j : ℕ) (hj : j < ([fT0, fT1] : List Detection).length),
      (find_best_match dT [fT0, fT1] []).2.1 = (j : ℤ)
      ∧ ([fT0, fT1] : List Detection).get ⟨j, hj⟩ = fT0
      ∧ fT0.class_id = dT.class_id
      ∧ (j : ℤ) ∉ ([] : List ℤ)
      ∧ ∀ (k : ℕ) (hk : k < ([fT0, fT1] : List Detection).length),
          (([fT0, fT1] : List Detection).get ⟨k, hk⟩).class_id = dT.class_id →
          (k : ℤ) ∉ ([] : List ℤ) →
          dist2 (centroidD dT) (centroidD fT0)
            ≤ dist2 (centroidD dT) (centroidD (([fT0, fT1] : List Detection).get ⟨k, hk⟩)) :=
  (find_best_match_greedy_spec dT [fT0, fT1] []).2.1 fT0 (by with_unfolding_all decide)

/-- C10 witness: `fT0` and `fT1` lie at the same squared distance 4 from `dT`;
the matcher picks the smaller index, so every tied candidate has an index at
least as large. -/
theorem find_best_match_tie_break_witness :
    ∃ (j : ℕ) (hj : j < ([fT0, fT1] : List Detection).length),
      (find_best_match dT [fT0, fT1] []).2.1 = (j : ℤ)
      ∧ ([fT0, fT1] : List Detection).get ⟨j, hj⟩ = fT0
      ∧ ∀ (k : ℕ) (hk : k < ([fT0, fT1] : List Detection).length),
          (([fT0, fT1] : List Detection).get ⟨k, hk⟩).class_id = dT.class_id →
          (k : ℤ) ∉ ([] : List ℤ) →
          dist2 (centroidD dT) (centroidD (([fT0, fT1] : List Detection).get ⟨k, hk⟩))
            = dist2 (centroidD dT) (centroidD fT0) → j ≤ k :=
  find_best_match_tie_break dT [fT0, fT1] [] fT0 (by with_unfolding_all decide)

/-- C3 witness: a before-detection with no candidate at all is charged -1. -/
theorem unmatched_delta_minus_one_witness :
    dictGet (pass1 cmW [] ([], []) [dW1]).1 "skittles" = -1 := by
  have h := (unmatched_delta_minus_one cmW []).1 [] [] dW1 rfl "skittles"
  exact h.trans (by with_unfolding_all decide)

/-- C4 witness: applying a -1 delta to a stored count of 5 yields 4. -/
theorem apply_inventory_updates_spec_witness :
    dictGet (apply_inventory_updates [("snickers", 5)] [("snickers", -1)]) "snickers" = 4 := by
  have h := (apply_inventory_updates_spec [("snickers", 5)] [("snickers", -1)]
    (by simp [KeysNodup])).1 "snickers" (by decide)
  rw [h]
  decide

/-- C9 witness: the claimed-index list computed by pass 1 on concrete data is
the list of paired after-indices. -/
theorem match_result_indices_unique_witness :
    (pass1 cmW [fW1, fW2] ([], []) [dW1, dW2]).2
      = (matchPairsIdx [fW1, fW2] [] 0 [dW1, dW2]).map Prod.snd :=
  (match_result_indices_unique [dW1, dW2] [fW1, fW2]).2.2.2.2 cmW []

/-- C8 amended, witness: a disappeared item's label is present in the mapping. -/
theorem analyze_keys_iff_witness :
    hasKey (analyze_inventory_changes [dW1] [] cmW) "skittles" = true :=
  (analyze_keys_iff [dW1] [] cmW "skittles").mpr (by with_unfolding_all decide)
